import Mathlib

/-!
Verification of the partition-level data-frame layer of the arimo `Util`
repository (`arimo/data/__init__.py` and `arimo/data/distributed_parquet.py`).

The Python classes `AbstractDataHandler` and `S3ParquetDistributedDataFrame`
are shallowly embedded: the piece-sub-path bookkeeping, the partition-key
filtering, the weighted split, the sample piece-count arithmetic, the
profiling-threshold cache and the transform-chain plumbing are translated to
executable Lean functions, and the behavioural properties of the layer are
proved against these functions.
-/

namespace ArimoData

/-! ## Sample piece-count arithmetic

Embedding of `S3ParquetDistributedDataFrame.sample` (distributed_parquet.py
lines 892-910).  The Python code computes

  `sampleNPieces = max(int(math.ceil(((min(n, nRows) / nRows) ** .5) * nPieces)), minNPieces)`

then caps it by `maxNPieces` when that keyword is truthy, and finally uses all
pieces when `sampleNPieces` is not below `nPieces`.  We model the real-valued
expression exactly over the rationals: `ceil(sqrt(a/b))` for naturals equals
the least `k` with `k*k*b ≥ a`, which is `natCeilSqrt (ceilDiv a b)`.
-/

namespace SampleCount

/-- Ceiling division on naturals, `⌈a / b⌉` for `b > 0`. -/
def ceilDiv (a b : ℕ) : ℕ := (a + b - 1) / b

/-- Least `k` with `c ≤ k * k`: the ceiling of the real square root of `c`. -/
def natCeilSqrt (c : ℕ) : ℕ :=
  if Nat.sqrt c * Nat.sqrt c = c then Nat.sqrt c else Nat.sqrt c + 1

/-- The `sampleNPieces` value computed at distributed_parquet.py:897-903.
`n` is the requested sample size, `R` the total row count, `P` the number of
pieces, `m` the `minNPieces` keyword and `M` the optional `maxNPieces`
keyword.  A `maxNPieces` of `0` is falsy in Python and hence ignored, exactly
as `if maxNPieces:` does. -/
def sampleNPieces (n R P m : ℕ) (M : Option ℕ) : ℕ :=
  let base := natCeilSqrt (ceilDiv (min n R * (P * P)) R)
  let s := max base m
  match M with
  | none => s
  | some mx => if mx = 0 then s else min s mx

/-- Number of pieces actually selected for reading
(distributed_parquet.py:905-910): `sampleNPieces` many chosen at random when
that is below `nPieces`, otherwise every piece. -/
def touchedNPieces (n R P m : ℕ) (M : Option ℕ) : ℕ :=
  if sampleNPieces n R P m M < P then sampleNPieces n R P m M else P

/-- The piece count asserted by the specification:
`max(minNPieces, ceil(sqrt(n/R) * P))`, capped by `maxNPieces` when given and
by `P`.  Stated with the real square root, following the spec text. -/
noncomputable def claimNPieces (n R P m : ℕ) (M : Option ℕ) : ℕ :=
  let c := (Int.ceil (Real.sqrt ((n : ℝ) / (R : ℝ)) * (P : ℝ))).toNat
  let s := max m c
  let s2 := match M with
    | none => s
    | some mx => min s mx
  min s2 P

end SampleCount

/-! ## Partition sub-path machinery

Embedding of `_subset` (distributed_parquet.py:638-724) and
`filterByPartitionKeys` (distributed_parquet.py:822-884).  A handle's set of
piece sub-paths is carried as a list in iteration order; `next(iter(...))` is
the head of that list.
-/

namespace PartitionSubset

/-- Check whether the pattern chars occur at the start of the string chars. -/
def charsStartWith : List Char → List Char → Bool
  | [], _ => true
  | _ :: _, [] => false
  | p :: ps, c :: cs => p = c && charsStartWith ps cs

/-- Drop everything up to and including the first occurrence of `pat`;
`none` when `pat` does not occur.  This models the locate step of
`re.search(col + '=(.*?)/', subPath)` and of `col + '=' in subPath`. -/
def dropThroughFirst (pat : List Char) : List Char → Option (List Char)
  | [] => if pat.isEmpty then some [] else none
  | c :: cs =>
      if charsStartWith pat (c :: cs) then some ((c :: cs).drop pat.length)
      else dropThroughFirst pat cs

/-- The lazy `(.*?)/` part of the regex: the chars before the first `/`,
`none` when no `/` follows (the regex then has no match at all). -/
def takeUntilSlash (s : List Char) : Option (List Char) :=
  if s.contains '/' then some (s.takeWhile (fun c => c != '/')) else none

/-- `col + '=' in subPath` (distributed_parquet.py:832). -/
def keyOccurs (col : String) (subPath : String) : Bool :=
  (dropThroughFirst (col.data ++ ['=']) subPath.data).isSome

/-- `re.search(col + '=(.*?)/', subPath).group(1)`
(distributed_parquet.py:862); `none` models the `AttributeError` raised when
the regex has no match. -/
def searchKeyVal (col : String) (subPath : String) : Option String :=
  ((dropThroughFirst (col.data ++ ['=']) subPath.data).bind takeUntilSlash).map
    (fun cs => String.mk cs)

/-- Lexicographic code-point comparison of char lists: the semantics of
Python string `<`. -/
def charListLt : List Char → List Char → Bool
  | [], [] => false
  | [], _ :: _ => true
  | _ :: _, [] => false
  | a :: as, b :: bs => a.toNat < b.toNat || (a = b && charListLt as bs)

/-- Python string comparison `a < b`. -/
def strLt (a b : String) : Bool := charListLt a.data b.data

/-- A filter criterion tuple: either `(col, inValsSet)` or
`(col, fromVal, toVal)`, values already stringified as the Python code does. -/
inductive FilterCriterion
  | inSet (col : String) (vals : List String)
  | range (col : String) (fromVal toVal : Option String)
deriving DecidableEq

/-- Column name of a criterion. -/
def FilterCriterion.col : FilterCriterion → String
  | .inSet c _ => c
  | .range c _ _ => c

/-- Whether a partition-key value passes one criterion
(distributed_parquet.py:864-866): fails when `v < fromVal`, `v > toVal`, or
`v` is missing from the in-set. -/
def critAdmits (crit : FilterCriterion) (v : String) : Bool :=
  match crit with
  | .inSet _ vals => vals.contains v
  | .range _ f t =>
      !(match f with
        | some fv => strLt v fv
        | none => false) &&
      !(match t with
        | some tv => strLt tv v
        | none => false)

/-- Replace the entry with the same column or append: assignment into the
`filterCriteria` dict (distributed_parquet.py:853). -/
def updateCrit (acc : List FilterCriterion) (c : FilterCriterion) : List FilterCriterion :=
  if acc.any (fun a => a.col = c.col) then
    acc.map (fun a => if a.col = c.col then c else a)
  else acc ++ [c]

/-- The `filterCriteria` dict built at distributed_parquet.py:826-853: a
criterion is kept only when `col + '='` occurs in the sampled sub-path. -/
def buildFilterCriteria (ts : List FilterCriterion) (sample : String) : List FilterCriterion :=
  ts.foldl (fun acc c => if keyOccurs c.col sample then updateCrit acc c else acc) []

/-- Whether one piece sub-path satisfies every criterion
(distributed_parquet.py:858-868), with the Python short-circuit: a later
criterion is not evaluated once one fails, and `none` models the
`AttributeError` when the regex fails on an evaluated criterion. -/
def checkPiece : List FilterCriterion → String → Option Bool
  | [], _ => some true
  | c :: cs, sub =>
      match searchKeyVal c.col sub with
      | none => none
      | some v => if critAdmits c v then checkPiece cs sub else some false

/-- The set of piece sub-paths satisfying the criteria, in iteration order;
`none` when some evaluated regex search fails. -/
def matchingPieces (crits : List FilterCriterion) : List String → Option (List String)
  | [] => some []
  | p :: ps =>
      match checkPiece crits p with
      | none => none
      | some true => (matchingPieces crits ps).map (fun r => p :: r)
      | some false => matchingPieces crits ps

/-- A dataset handle, reduced to the fields the subset machinery reads:
the discovered piece sub-paths (a set, carried in iteration order) and the
cached `nPieces` count. -/
structure PHandle where
  pieceSubPaths : List String
  nPieces : ℕ

/-- Invariant established by `__init__` (distributed_parquet.py:107-133):
the sub-paths are distinct, `nPieces` is their number, and there is at least
one piece. -/
def PHandle.wf (h : PHandle) : Prop :=
  h.pieceSubPaths.Nodup ∧ h.nPieces = h.pieceSubPaths.length ∧ h.pieceSubPaths ≠ []

/-- Result of `_subset`: the assert at line 640, returning `self`, or a new
handle over the given sub-paths after `nCopies` per-piece file copies
(`nCopies = 0` in the single-piece branch, which only re-points the path). -/
inductive SubsetResult
  | assertFail
  | same
  | newFrom (paths : List String) (nCopies : ℕ)
deriving DecidableEq

/-- Embedding of `_subset` (distributed_parquet.py:638-724). -/
def PHandle.subset (h : PHandle) (ps : List String) : SubsetResult :=
  if ps = [] then .same
  else if ∀ p ∈ ps, p ∈ h.pieceSubPaths then
    if ps.length = h.nPieces then .same
    else if 1 < ps.length then .newFrom ps ps.length
    else .newFrom ps 0
  else .assertFail

/-- Result of `filterByPartitionKeys`: returning `self` (no applicable
criteria), the empty-match assert at line 873, the `AttributeError` from a
failed regex search, or the result of `_subset` over the matching pieces. -/
inductive FilterOutcome
  | same
  | assertFail
  | regexFail
  | subsetOf (r : SubsetResult)
deriving DecidableEq

/-- Embedding of `filterByPartitionKeys` (distributed_parquet.py:822-884). -/
def PHandle.filterByPartitionKeys (h : PHandle) (ts : List FilterCriterion) : FilterOutcome :=
  let sample := h.pieceSubPaths.headI
  let crits := buildFilterCriteria ts sample
  if crits = [] then .same
  else
    match matchingPieces crits h.pieceSubPaths with
    | none => .regexFail
    | some ms => if ms = [] then .assertFail else .subsetOf (h.subset ms)

/-- Concrete two-piece handle used to instantiate the theorems. -/
def hAB : PHandle := { pieceSubPaths := ["d=1/x", "d=2/x"], nPieces := 2 }

/-- Criteria instance whose range admits both pieces of `hAB`. -/
def tsRange : List FilterCriterion := [.range "d" (some "1") (some "2")]

/-- Criteria instance whose column occurs in no sub-path of `hAB`. -/
def tsZone : List FilterCriterion := [.inSet "zone" ["1"]]

end PartitionSubset

/-! ## Profiling-threshold cache

Embedding of `AbstractDataHandler.minNonNullProportion` (setter,
`__init__.py`:255-259) and the single-column branch of `suffNonNull`
(`__init__.py`:510-530).  `self._minNonNullProportion[col]` reads the
`.default` field of the threshold namespace; nothing in the sources installs
a per-column override, so the lookup is the default value.  Proportions are
modelled as exact rationals. -/

namespace Profiling

/-- Assignment into a string-keyed dict: replace or append. -/
def insertAssoc {β : Type} (l : List (String × β)) (k : String) (v : β) : List (String × β) :=
  if l.any (fun p => p.1 = k) then l.map (fun p => if p.1 = k then (k, v) else p)
  else l ++ [(k, v)]

/-- The profiling state of a handler: the current default threshold, the
backend statistic `nonNullProportion`, and the two caches read by
`suffNonNull`. -/
structure ProfHandler where
  minNonNullProportionDefault : ℚ
  nonNullProportionOf : String → ℚ
  cacheSuffNonNull : List (String × Bool)
  cacheSuffThreshold : List (String × ℚ)

/-- The `minNonNullProportion` setter (`__init__.py`:255-259): when the new
value differs it updates the default and clears the `suffNonNull` cache
(the threshold cache is left alone). -/
def setMinNonNullProportion (h : ProfHandler) (v : ℚ) : ProfHandler :=
  if v ≠ h.minNonNullProportionDefault then
    { h with minNonNullProportionDefault := v, cacheSuffNonNull := [] }
  else h

/-- The single-column branch of `suffNonNull` (`__init__.py`:510-530):
refresh the per-column threshold record, recompute when the column is
uncached or its recorded threshold is outdated, and return the cached flag. -/
def suffNonNullOne (h : ProfHandler) (col : String) : Bool × ProfHandler :=
  let m := h.minNonNullProportionDefault
  let outdated : Bool :=
    match h.cacheSuffThreshold.lookup col with
    | some t => t != m
    | none => false
  let h1 := { h with cacheSuffThreshold := insertAssoc h.cacheSuffThreshold col m }
  match h1.cacheSuffNonNull.lookup col with
  | some b =>
      if outdated then
        let r := decide (m ≤ h.nonNullProportionOf col)
        (r, { h1 with cacheSuffNonNull := insertAssoc h1.cacheSuffNonNull col r })
      else (b, h1)
  | none =>
      let r := decide (m ≤ h.nonNullProportionOf col)
      (r, { h1 with cacheSuffNonNull := insertAssoc h1.cacheSuffNonNull col r })

/-- Concrete handler state with a populated cache, for instantiation. -/
def profH0 : ProfHandler :=
  { minNonNullProportionDefault := 32/100
    nonNullProportionOf := fun _ => 1/2
    cacheSuffNonNull := [("c", true)]
    cacheSuffThreshold := [("c", 32/100)] }

end Profiling

/-! ## Weighted split

Embedding of `split` (distributed_parquet.py:994-1013).  The shuffled list of
piece sub-paths is taken as input; `cumuIndices` are
`int(round(cumuWeights[i] * nPieces))` with Python/numpy round-half-to-even;
each slice goes through `_subset`, whose piece-set semantics is: an empty
argument tuple returns `self`, i.e. the full piece set. -/

namespace Splitting

/-- Round half to even on rationals, the semantics of Python `round`. -/
def roundHalfToEven (q : ℚ) : ℤ :=
  let f := Int.floor q
  let r := q - (f : ℚ)
  if r < 1/2 then f
  else if 1/2 < r then f + 1
  else if f % 2 = 0 then f else f + 1

/-- Cumulative sums `numpy.cumsum(weights)`. -/
def cumulativeSums : List ℚ → List ℚ
  | [] => []
  | w :: ws => w :: (cumulativeSums ws).map (fun c => w + c)

/-- The rounded cumulative indices `int(round(cumuWeights[i] * nPieces))`
(distributed_parquet.py:1007-1010), without the leading `0`. -/
def splitCuts (weights : List ℚ) (P : ℕ) : List ℕ :=
  (cumulativeSums weights).map
    (fun c => (roundHalfToEven (c / weights.sum * (P : ℚ))).toNat)

/-- The list slices `pieceSubPaths[cumuIndices[i]:cumuIndices[i+1]]`. -/
def slicesFrom (xs : List String) : ℕ → List ℕ → List (List String)
  | _, [] => []
  | prev, c :: cs => ((xs.drop prev).take (c - prev)) :: slicesFrom xs c cs

/-- Consecutive differences of the cut indices: the slice sizes the
specification asserts. -/
def cutDiffs : ℕ → List ℕ → List ℕ
  | _, [] => []
  | prev, c :: cs => (c - prev) :: cutDiffs c cs

/-- The raw slices produced by `split` over a shuffled piece list. -/
def splitSlices (pieces : List String) (weights : List ℚ) : List (List String) :=
  slicesFrom pieces 0 (splitCuts weights pieces.length)

/-- Piece-set semantics of `self._subset(*slice)` (distributed_parquet.py:
638-645, 723-724): an empty slice returns `self`, whose piece set is the
full set; a non-empty slice yields a handle over exactly those pieces. -/
def subsetPieces (pieces : List String) (s : List String) : List String :=
  if s = [] then pieces else s

/-- The piece sets of the handles returned by `split` in the multi-weight
branch (distributed_parquet.py:1012-1013). -/
def splitSubsets (pieces : List String) (weights : List ℚ) : List (List String) :=
  (splitSlices pieces weights).map (subsetPieces pieces)

/-- Result of `split`: the handle itself, or a list of subset handles. -/
inductive SplitOutcome
  | selfHandle
  | parts (ss : List (List String))
deriving DecidableEq

/-- Embedding of `split` (distributed_parquet.py:994-1013): no weights or the
single weight `(1,)` return `self` itself. -/
def splitDDF (pieces : List String) (weights : List ℚ) : SplitOutcome :=
  if weights = [] ∨ weights = [(1 : ℚ)] then .selfHandle
  else .parts (splitSubsets pieces weights)

end Splitting

/-! ## Per-piece sampling loop

Embedding of the loop at distributed_parquet.py:916-932: each chosen piece is
read and sub-sampled inside a `try`, a raised error is printed and the piece
skipped, and the sub-samples of the pieces that succeeded are unioned by
`DDF.unionAllCols(*adfs)`; `adfs[0]` is then accessed, so a run in which
every piece fails raises instead of returning. -/

namespace SampleRun

/-- Outcome of the sampling loop: `readPiece p` is the sub-sample obtained
from piece `p`, `none` when reading it raised.  The result is the list of
successful sub-samples (whose union the code returns), and `none` when no
piece succeeded, modelling the `adfs[0]` failure at line 932. -/
def sampleOutcome {α : Type} (pieces : List String) (readPiece : String → Option α) :
    Option (List α) :=
  let subs := pieces.filterMap readPiece
  if subs.isEmpty then none else some subs

/-- Concrete reader that fails on every piece except `good`. -/
def readPieceExample : String → Option (List ℕ) :=
  fun s => if s = "good" then some [3] else none

end SampleRun

/-! ## Transform-chain plumbing

Embedding of `transform` (distributed_parquet.py:379-451) and the operations
dispatching into it (`select`, `sql`, `filter`, `withColumn`, `fillna`,
`prep`, `drop`, item projection).  Engine-native transforms and local
columnar transforms are opaque to this layer, so they are carried as symbolic
tokens; the engine frame is a free term recording the applications. -/

namespace Transforms

/-- Symbolic engine-native transform, one constructor per operation shape. -/
inductive SparkOp
  | selectExprs (exprs : List String)
  | sqlStatement (stmt : String)
  | filterCond (cond : String)
  | withColumnExpr (name expr : String)
  | fillnaStatement (id : ℕ)
  | prepPipeline (id : ℕ)
  | dropCols (cols : List String)
  | itemProjection (items : List String)
  | customFunc (id : ℕ)
deriving DecidableEq

/-- Symbolic local-columnar transform. -/
inductive PandasOp
  | fillnaLocal (id : ℕ)
  | prepLocal (id : ℕ)
  | dropColsLocal (cols : List String)
  | itemGet (items : List String)
  | customLocal (id : ℕ)
deriving DecidableEq

/-- Free engine frame: the base load plus the transforms applied to it. -/
inductive EngineDF
  | base (path : String)
  | applied (op : SparkOp) (df : EngineDF)
deriving DecidableEq

/-- Apply a list of engine transforms in order (the loop at lines 414-424
and the replay loop in `__init__`, lines 213-225). -/
def applyChain (df : EngineDF) (ops : List SparkOp) : EngineDF :=
  ops.foldl (fun d op => .applied op d) df

/-- A handle, reduced to the fields `transform` reads and writes. -/
structure TCHandle where
  path : String
  pieceSubPaths : List String
  initSparkDF : EngineDF
  sparkDFTransforms : List SparkOp
  pandasDFTransforms : List PandasOp
  sparkDF : EngineDF

/-- Core of `transform` (distributed_parquet.py:379-451): apply the
additional engine transforms to the current frame and construct a new handle
over the same path (hence the same discovered piece sub-paths) whose two
chains are the old chains with the additions appended. -/
def transformCore (h : TCHandle) (addSpark : List SparkOp) (addPandas : List PandasOp) :
    TCHandle :=
  { path := h.path
    pieceSubPaths := h.pieceSubPaths
    initSparkDF := h.initSparkDF
    sparkDFTransforms := h.sparkDFTransforms ++ addSpark
    pandasDFTransforms := h.pandasDFTransforms ++ addPandas
    sparkDF := applyChain h.sparkDF addSpark }

/-- The transform-producing operations of the handle. -/
inductive Operation
  | transformOp (s : List SparkOp) (p : List PandasOp)
  | selectOp (exprs : List String)
  | sqlOp (q : String)
  | filterOp (cond : String)
  | withColumnOp (name expr : String)
  | fillnaOp (id : ℕ)
  | prepOp (id : ℕ)
  | dropOp (cols : List String)
  | itemOp (items : List String)
deriving DecidableEq

/-- Engine-native transforms each operation appends (the `sparkDFTransform`
argument each method passes to `transform`). -/
def sparkAdditions : Operation → List SparkOp
  | .transformOp s _ => s
  | .selectOp exprs => [.selectExprs exprs]
  | .sqlOp q => [.sqlStatement q]
  | .filterOp c => [.filterCond c]
  | .withColumnOp n e => [.withColumnExpr n e]
  | .fillnaOp i => [.fillnaStatement i]
  | .prepOp i => [.prepPipeline i]
  | .dropOp cols => [.dropCols cols]
  | .itemOp items => [.itemProjection items]

/-- Local-columnar transforms each operation appends: `select`, `sql`,
`filter` and `withColumn` pass `pandasDFTransform=[]` (no local equivalent),
the others pass their local counterpart. -/
def pandasAdditions : Operation → List PandasOp
  | .transformOp _ p => p
  | .selectOp _ => []
  | .sqlOp _ => []
  | .filterOp _ => []
  | .withColumnOp _ _ => []
  | .fillnaOp i => [.fillnaLocal i]
  | .prepOp i => [.prepLocal i]
  | .dropOp cols => [.dropColsLocal cols]
  | .itemOp items => [.itemGet items]

/-- Dispatch of each operation into `transform`. -/
def applyOperation (h : TCHandle) (op : Operation) : TCHandle :=
  transformCore h (sparkAdditions op) (pandasAdditions op)

/-- Concrete handle for instantiation. -/
def tch0 : TCHandle :=
  { path := "bucket/data"
    pieceSubPaths := ["d=1/x"]
    initSparkDF := .base "bucket/data"
    sparkDFTransforms := []
    pandasDFTransforms := []
    sparkDF := .base "bucket/data" }

end Transforms

/-! ## Row count and schema under `select('*')`

Embedding of `select` (distributed_parquet.py:453-471).  The engine frame is
modelled from the spec as a schema plus a row count; `selectExpr` is an
external-engine touchpoint. -/

namespace SelectStar

/-- Engine frame reduced to what the round-trip claim observes. -/
structure EngineFrame where
  schema : List (String × String)
  nRows : ℕ
deriving DecidableEq

/-- Modelled from the spec: the distributed engine's `selectExpr`.  With the
single expression `*` it returns the frame unchanged; otherwise it projects
the schema onto the named columns, preserving the row count. -/
def selectExprSem (exprs : List String) (df : EngineFrame) : EngineFrame :=
  if exprs = ["*"] then df
  else
    { schema := exprs.filterMap (fun e => df.schema.find? (fun p => p.1 = e))
      nRows := df.nRows }

/-- A handle, reduced to the fields the round-trip claim observes: the engine
frame, the cached row count and the cached type map. -/
structure SHandle where
  frame : EngineFrame
  cacheNRows : Option ℕ
  cacheTypes : List (String × String)

/-- The observable row count: the cached value when present, otherwise the
engine count of the current frame. -/
def SHandle.nRows (h : SHandle) : ℕ :=
  h.cacheNRows.getD h.frame.nRows

/-- Embedding of `select` (distributed_parquet.py:453-471): `inheritCache`
(hence `inheritNRows`) is `'*' in exprs` (or `True` when no expressions are
given, in which case `exprs` becomes `('*',)`); the constructed handle
carries the transformed frame, inherits the cached row count accordingly,
and recaches the type map from the new frame. -/
def selectH (h : SHandle) (exprs : List String) : SHandle :=
  let actualExprs := if exprs.isEmpty then ["*"] else exprs
  let inheritNRows := if exprs.isEmpty then true else exprs.contains "*"
  let f2 := selectExprSem actualExprs h.frame
  { frame := f2
    cacheNRows := if inheritNRows then h.cacheNRows else none
    cacheTypes := f2.schema }

end SelectStar

/-! ## Theorems -/

namespace SampleCount

/-- Least-square-root characterisation: `natCeilSqrt c` is the least `k`
with `c ≤ k * k`. -/
theorem natCeilSqrt_le_iff (c k : ℕ) : natCeilSqrt c ≤ k ↔ c ≤ k * k := by
  unfold natCeilSqrt
  split
  case isTrue hsq =>
    constructor
    · intro hk
      calc c = Nat.sqrt c * Nat.sqrt c := hsq.symm
        _ ≤ k * k := Nat.mul_le_mul hk hk
    · intro hk
      have h1 : Nat.sqrt c ≤ Nat.sqrt (k * k) := Nat.sqrt_le_sqrt hk
      rwa [Nat.sqrt_eq] at h1
  case isFalse hsq =>
    constructor
    · intro hk
      have h1 : c < (Nat.sqrt c + 1) * (Nat.sqrt c + 1) := Nat.lt_succ_sqrt c
      have h2 : (Nat.sqrt c + 1) * (Nat.sqrt c + 1) ≤ k * k := Nat.mul_le_mul hk hk
      omega
    · intro hk
      by_contra hcon
      have hks : k ≤ Nat.sqrt c := by omega
      have h3 : k * k ≤ Nat.sqrt c * Nat.sqrt c := Nat.mul_le_mul hks hks
      have h4 : Nat.sqrt c * Nat.sqrt c ≤ c := Nat.sqrt_le c
      have h5 : Nat.sqrt c * Nat.sqrt c = c := by omega
      exact hsq h5

theorem le_natCeilSqrt_sq (c : ℕ) : c ≤ natCeilSqrt c * natCeilSqrt c :=
  (natCeilSqrt_le_iff c (natCeilSqrt c)).mp le_rfl

theorem natCeilSqrt_mono {a b : ℕ} (h : a ≤ b) : natCeilSqrt a ≤ natCeilSqrt b :=
  (natCeilSqrt_le_iff a (natCeilSqrt b)).mpr (le_trans h (le_natCeilSqrt_sq b))

theorem natCeilSqrt_mul_self (P : ℕ) : natCeilSqrt (P * P) = P := by
  unfold natCeilSqrt
  rw [Nat.sqrt_eq]
  simp

theorem ceilDiv_le_iff {b : ℕ} (hb : 0 < b) (a k : ℕ) : ceilDiv a b ≤ k ↔ a ≤ k * b := by
  unfold ceilDiv
  rw [Nat.div_le_iff_le_mul_add_pred hb, Nat.mul_comm b k]
  omega

theorem le_mul_ceilDiv {b : ℕ} (hb : 0 < b) (a : ℕ) : a ≤ ceilDiv a b * b :=
  (ceilDiv_le_iff hb a (ceilDiv a b)).mp le_rfl

theorem ceilDiv_mul_self {b : ℕ} (hb : 0 < b) (x : ℕ) : ceilDiv (b * x) b = x := by
  apply le_antisymm
  · exact (ceilDiv_le_iff hb (b * x) x).mpr (le_of_eq (Nat.mul_comm b x))
  · by_contra hcon
    push_neg at hcon
    have h2 : ceilDiv (b * x) b ≤ x - 1 := by omega
    have h3 := (ceilDiv_le_iff hb (b * x) (x - 1)).mp h2
    have h4 : (x - 1) * b = x * b - b := by
      rw [Nat.sub_mul, Nat.one_mul]
    rw [Nat.mul_comm b x, h4] at h3
    have h5 : 0 < x := by omega
    have h6 : b ≤ x * b := Nat.le_mul_of_pos_left b h5
    omega

theorem ceilDiv_mono_left {a c b : ℕ} (h : a ≤ c) : ceilDiv a b ≤ ceilDiv c b :=
  Nat.div_le_div_right (by omega)

/-- The `natCeilSqrt`/`ceilDiv` encoding computes the real-valued
`⌈ sqrt(a/b) ⌉`, justifying the executable embedding of the float
expression in `sample`. -/
theorem ceil_sqrt_div (a b : ℕ) (hb : 0 < b) :
    Int.ceil (Real.sqrt ((a : ℝ) / (b : ℝ))) = (natCeilSqrt (ceilDiv a b) : ℤ) := by
  have hb0 : (0 : ℝ) < (b : ℝ) := by exact_mod_cast hb
  have hxnn : (0 : ℝ) ≤ (a : ℝ) / (b : ℝ) := div_nonneg (Nat.cast_nonneg a) (le_of_lt hb0)
  have hsnn : 0 ≤ Real.sqrt ((a : ℝ) / (b : ℝ)) := Real.sqrt_nonneg _
  apply le_antisymm
  · rw [Int.ceil_le]
    push_cast
    have hknn : (0 : ℝ) ≤ (natCeilSqrt (ceilDiv a b) : ℝ) := Nat.cast_nonneg _
    have hsq : (a : ℝ) / (b : ℝ)
        ≤ (natCeilSqrt (ceilDiv a b) : ℝ) * (natCeilSqrt (ceilDiv a b) : ℝ) := by
      rw [div_le_iff₀ hb0]
      have h1 : a ≤ ceilDiv a b * b := le_mul_ceilDiv hb a
      have h2 : ceilDiv a b ≤ natCeilSqrt (ceilDiv a b) * natCeilSqrt (ceilDiv a b) :=
        le_natCeilSqrt_sq _
      have h3 : a ≤ natCeilSqrt (ceilDiv a b) * natCeilSqrt (ceilDiv a b) * b :=
        le_trans h1 (Nat.mul_le_mul_right b h2)
      exact_mod_cast h3
    nlinarith [Real.sq_sqrt hxnn, hsnn, hknn]
  · have hcnn : 0 ≤ Int.ceil (Real.sqrt ((a : ℝ) / (b : ℝ))) := Int.ceil_nonneg hsnn
    have hjdef : ((Int.ceil (Real.sqrt ((a : ℝ) / (b : ℝ)))).toNat : ℤ)
        = Int.ceil (Real.sqrt ((a : ℝ) / (b : ℝ))) := Int.toNat_of_nonneg hcnn
    set j : ℕ := (Int.ceil (Real.sqrt ((a : ℝ) / (b : ℝ)))).toNat with hj
    have hxj : Real.sqrt ((a : ℝ) / (b : ℝ)) ≤ (j : ℝ) := by
      have h1 := Int.le_ceil (Real.sqrt ((a : ℝ) / (b : ℝ)))
      have h2 : ((j : ℤ) : ℝ) = ((Int.ceil (Real.sqrt ((a : ℝ) / (b : ℝ)))) : ℝ) := by
        exact_mod_cast congrArg (fun z : ℤ => (z : ℝ)) hjdef
      push_cast at h2
      linarith [h1, le_of_eq h2.symm]
    have hsq2 : (a : ℝ) / (b : ℝ) ≤ (j : ℝ) * (j : ℝ) := by
      nlinarith [Real.sq_sqrt hxnn, hsnn, hxj]
    have hnat : a ≤ j * j * b := by
      rw [div_le_iff₀ hb0] at hsq2
      exact_mod_cast hsq2
    have h5 : ceilDiv a b ≤ j * j := (ceilDiv_le_iff hb a (j * j)).mpr hnat
    have h6 : natCeilSqrt (ceilDiv a b) ≤ j := (natCeilSqrt_le_iff _ _).mpr h5
    calc (natCeilSqrt (ceilDiv a b) : ℤ) ≤ (j : ℤ) := by exact_mod_cast h6
      _ = _ := hjdef

/-- The multiplied form `⌈ sqrt(n/R) * P ⌉` in exact encoding. -/
theorem ceil_sqrt_div_mul (n R P : ℕ) (hR : 0 < R) :
    Int.ceil (Real.sqrt ((n : ℝ) / (R : ℝ)) * (P : ℝ))
      = (natCeilSqrt (ceilDiv (n * (P * P)) R) : ℤ) := by
  have hxnn : (0 : ℝ) ≤ (n : ℝ) / (R : ℝ) :=
    div_nonneg (Nat.cast_nonneg n) (Nat.cast_nonneg R)
  have hrw : Real.sqrt ((n : ℝ) / (R : ℝ)) * (P : ℝ)
      = Real.sqrt (((n * (P * P) : ℕ) : ℝ) / (R : ℝ)) := by
    rw [show (((n * (P * P) : ℕ)) : ℝ) = (n : ℝ) * ((P : ℝ) * (P : ℝ)) from by push_cast; ring,
      show ((n : ℝ) * ((P : ℝ) * (P : ℝ))) / (R : ℝ)
          = ((n : ℝ) / (R : ℝ)) * ((P : ℝ) * (P : ℝ)) from by ring,
      Real.sqrt_mul hxnn, Real.sqrt_mul_self (Nat.cast_nonneg P)]
  rw [hrw, ceil_sqrt_div (n * (P * P)) R hR]

/-- Choosing `s` pieces when `s < P` and all `P` pieces otherwise is the
minimum of the two. -/
theorem ite_min_self (s P : ℕ) : (if s < P then s else P) = min s P := by
  rcases Nat.lt_or_ge s P with h | h
  · rw [if_pos h, min_eq_left (le_of_lt h)]
  · rw [if_neg (not_lt.mpr h), min_eq_right h]

/-- C1: for a dataset with `R > 0` rows and `P` pieces, `sample(n)` with
`minNPieces = m` and a positive optional `maxNPieces` touches exactly
`max(m, ⌈ sqrt(n/R) * P ⌉)` pieces, capped by `maxNPieces` when given and by
`P`. -/
theorem sample_touchedNPieces_eq_formula (n R P m : ℕ) (M : Option ℕ)
    (hR : 0 < R) (hM : ∀ mx ∈ M, 0 < mx) :
    touchedNPieces n R P m M = claimNPieces n R P m M := by
  have hclaim : (Int.ceil (Real.sqrt ((n : ℝ) / (R : ℝ)) * (P : ℝ))).toNat
      = natCeilSqrt (ceilDiv (n * (P * P)) R) := by
    rw [ceil_sqrt_div_mul n R P hR, Int.toNat_natCast]
  have htouch : touchedNPieces n R P m M = min (sampleNPieces n R P m M) P :=
    ite_min_self _ _
  rw [htouch]
  rcases M with _ | mx
  · simp only [sampleNPieces, claimNPieces, hclaim]
    by_cases hnR : n ≤ R
    · rw [min_eq_left hnR]
      omega
    · push_neg at hnR
      have hx1 : natCeilSqrt (ceilDiv (R * (P * P)) R) = P := by
        rw [ceilDiv_mul_self hR, natCeilSqrt_mul_self]
      have hx2 : P ≤ natCeilSqrt (ceilDiv (n * (P * P)) R) := by
        have h1 : ceilDiv (R * (P * P)) R ≤ ceilDiv (n * (P * P)) R :=
          ceilDiv_mono_left (Nat.mul_le_mul_right _ (le_of_lt hnR))
        have h2 := natCeilSqrt_mono h1
        rwa [hx1] at h2
      rw [min_eq_right (le_of_lt hnR), hx1]
      omega
  · have hmx : 0 < mx := hM mx rfl
    simp only [sampleNPieces, claimNPieces, hclaim]
    rw [if_neg (by omega)]
    by_cases hnR : n ≤ R
    · rw [min_eq_left hnR]
      omega
    · push_neg at hnR
      have hx1 : natCeilSqrt (ceilDiv (R * (P * P)) R) = P := by
        rw [ceilDiv_mul_self hR, natCeilSqrt_mul_self]
      have hx2 : P ≤ natCeilSqrt (ceilDiv (n * (P * P)) R) := by
        have h1 : ceilDiv (R * (P * P)) R ≤ ceilDiv (n * (P * P)) R :=
          ceilDiv_mono_left (Nat.mul_le_mul_right _ (le_of_lt hnR))
        have h2 := natCeilSqrt_mono h1
        rwa [hx1] at h2
      rw [min_eq_right (le_of_lt hnR), hx1]
      omega

/-- Witness for C1: `n = 100`, `R = 1000`, `P = 10`, `minNPieces = 2`. -/
theorem sample_touchedNPieces_eq_formula_case :
    0 < 1000 ∧
    touchedNPieces 100 1000 10 2 none = claimNPieces 100 1000 10 2 none :=
  ⟨by omega, sample_touchedNPieces_eq_formula 100 1000 10 2 none (by omega) (by simp)⟩

end SampleCount

namespace PartitionSubset

/-- Requesting every sub-path of a well-formed handle from `_subset` hits the
`nPieceSubPaths == self.nPieces` branch and returns `self`. -/
theorem subset_self_of_wf (h : PHandle) (hwf : h.wf) :
    h.subset h.pieceSubPaths = SubsetResult.same := by
  obtain ⟨hnd, hlen, hne⟩ := hwf
  unfold PHandle.subset
  rw [if_neg hne, if_pos (fun p hp => hp), if_pos hlen.symm]

/-- When every piece satisfies the criteria, the matching set is the full
piece list in order. -/
theorem matchingPieces_all_true (crits : List FilterCriterion) (l : List String)
    (hall : ∀ p ∈ l, checkPiece crits p = some true) :
    matchingPieces crits l = some l := by
  induction l with
  | nil => rfl
  | cons p ps ih =>
    have h1 : checkPiece crits p = some true := hall p (by simp)
    simp only [matchingPieces, h1]
    rw [ih (fun q hq => hall q (by simp [hq]))]
    rfl

/-- When no piece satisfies the criteria, the matching set is empty. -/
theorem matchingPieces_all_false (crits : List FilterCriterion) (l : List String)
    (hall : ∀ p ∈ l, checkPiece crits p = some false) :
    matchingPieces crits l = some [] := by
  induction l with
  | nil => rfl
  | cons p ps ih =>
    have h1 : checkPiece crits p = some false := hall p (by simp)
    simp only [matchingPieces, h1]
    exact ih (fun q hq => hall q (by simp [hq]))

/-- Folding the criteria-dict step over the applicable criteria only gives
the same dict, from any accumulator. -/
theorem buildCriteria_foldl_filter (sample : String) (ts : List FilterCriterion)
    (acc : List FilterCriterion) :
    (ts.filter fun t => keyOccurs t.col sample).foldl
        (fun acc c => if keyOccurs c.col sample then updateCrit acc c else acc) acc
      = ts.foldl (fun acc c => if keyOccurs c.col sample then updateCrit acc c else acc) acc := by
  induction ts generalizing acc with
  | nil => rfl
  | cons t ts ih =>
    by_cases hk : keyOccurs t.col sample = true
    · have hflt : List.filter (fun t => keyOccurs t.col sample) (t :: ts)
          = t :: List.filter (fun t => keyOccurs t.col sample) ts := by
        simp [List.filter_cons, hk]
      rw [hflt, List.foldl_cons, List.foldl_cons, ih]
    · have hk2 : keyOccurs t.col sample = false := by
        revert hk; cases keyOccurs t.col sample <;> simp
      have hflt : List.filter (fun t => keyOccurs t.col sample) (t :: ts)
          = List.filter (fun t => keyOccurs t.col sample) ts := by
        simp [List.filter_cons, hk2]
      rw [hflt, List.foldl_cons, if_neg (by simp [hk2]), ih]

/-- Criteria whose column does not occur in the sampled sub-path never make
it into the `filterCriteria` dict: dropping them first changes nothing. -/
theorem buildFilterCriteria_filter (ts : List FilterCriterion) (sample : String) :
    buildFilterCriteria (ts.filter fun t => keyOccurs t.col sample) sample
      = buildFilterCriteria ts sample :=
  buildCriteria_foldl_filter sample ts []

/-- When no criterion column occurs in the sampled sub-path, the
`filterCriteria` dict stays empty. -/
theorem buildFilterCriteria_nil (ts : List FilterCriterion) (sample : String)
    (hall : ∀ t ∈ ts, keyOccurs t.col sample = false) :
    buildFilterCriteria ts sample = [] := by
  suffices haux : ∀ (us : List FilterCriterion),
      (∀ t ∈ us, keyOccurs t.col sample = false) →
      ∀ acc, us.foldl
        (fun acc c => if keyOccurs c.col sample then updateCrit acc c else acc) acc = acc by
    exact haux ts hall []
  intro us
  induction us with
  | nil => intro _ acc; rfl
  | cons t ts2 ih =>
    intro hall2 acc
    rw [List.foldl_cons, if_neg (by simp [hall2 t (by simp)])]
    exact ih (fun q hq => hall2 q (by simp [hq])) acc

/-- C2: calling `_subset` with a set of sub-paths equal to the handle's full
sub-path set returns the handle itself and performs no file copy. -/
theorem subset_of_full_set_returns_self (h : PHandle) (ps : List String)
    (hwf : h.wf) (hnd : ps.Nodup) (hset : ps.toFinset = h.pieceSubPaths.toFinset) :
    h.subset ps = SubsetResult.same := by
  by_cases hne : ps = []
  · rw [hne]; simp [PHandle.subset]
  · have hmem : ∀ p ∈ ps, p ∈ h.pieceSubPaths := by
      intro p hp
      exact List.mem_toFinset.mp (hset ▸ List.mem_toFinset.mpr hp)
    have hlen : ps.length = h.nPieces := by
      rw [hwf.2.1, ← List.toFinset_card_of_nodup hnd, ← List.toFinset_card_of_nodup hwf.1,
        hset]
    unfold PHandle.subset
    rw [if_neg hne, if_pos hmem, if_pos hlen]

/-- Witness for C2: the full set of `hAB`, listed in the other order. -/
theorem subset_of_full_set_returns_self_case :
    hAB.subset ["d=2/x", "d=1/x"] = SubsetResult.same :=
  subset_of_full_set_returns_self hAB ["d=2/x", "d=1/x"]
    ⟨by decide, by decide, by decide⟩ (by decide) (by decide)

/-- C3: for partition-key criteria that survive into the criteria dict, a
run in which no piece satisfies them trips the empty-result assert, and a
run in which every piece satisfies them returns `_subset` over the full set,
i.e. the unfiltered handle itself. -/
theorem filterByPartitionKeys_zero_or_all_matching (h : PHandle) (ts : List FilterCriterion)
    (hwf : h.wf)
    (hcrit : buildFilterCriteria ts h.pieceSubPaths.headI ≠ []) :
    ((∀ p ∈ h.pieceSubPaths,
        checkPiece (buildFilterCriteria ts h.pieceSubPaths.headI) p = some false) →
      h.filterByPartitionKeys ts = FilterOutcome.assertFail) ∧
    ((∀ p ∈ h.pieceSubPaths,
        checkPiece (buildFilterCriteria ts h.pieceSubPaths.headI) p = some true) →
      h.filterByPartitionKeys ts = FilterOutcome.subsetOf SubsetResult.same) := by
  constructor
  · intro hall
    simp only [PHandle.filterByPartitionKeys]
    rw [if_neg hcrit, matchingPieces_all_false _ _ hall]
    rfl
  · intro hall
    simp only [PHandle.filterByPartitionKeys]
    rw [if_neg hcrit, matchingPieces_all_true _ _ hall]
    show (if h.pieceSubPaths = [] then FilterOutcome.assertFail
        else FilterOutcome.subsetOf (h.subset h.pieceSubPaths))
      = FilterOutcome.subsetOf SubsetResult.same
    rw [if_neg hwf.2.2, subset_self_of_wf h hwf]

/-- Witness for C3 (all-match side): a range criterion admitting both
pieces of `hAB`. -/
theorem filterByPartitionKeys_zero_or_all_matching_case :
    hAB.filterByPartitionKeys tsRange
      = FilterOutcome.subsetOf SubsetResult.same :=
  (filterByPartitionKeys_zero_or_all_matching hAB tsRange
    ⟨by decide, by decide, by decide⟩ (by decide)).2 (by decide)

/-- C9: `filterByPartitionKeys` silently drops each criterion whose column
does not occur as a `key=` segment of the sampled sub-path, and when no
supplied criterion applies it returns the original handle itself. -/
theorem filterByPartitionKeys_ignores_inapplicable (h : PHandle) (ts : List FilterCriterion) :
    h.filterByPartitionKeys ts
      = h.filterByPartitionKeys (ts.filter fun t => keyOccurs t.col h.pieceSubPaths.headI) ∧
    ((∀ t ∈ ts, keyOccurs t.col h.pieceSubPaths.headI = false) →
      h.filterByPartitionKeys ts = FilterOutcome.same) := by
  constructor
  · simp only [PHandle.filterByPartitionKeys]
    rw [buildFilterCriteria_filter]
  · intro hall
    simp only [PHandle.filterByPartitionKeys]
    rw [buildFilterCriteria_nil ts _ hall]
    rfl

/-- Witness for C9: a criterion on a column absent from the sub-paths. -/
theorem filterByPartitionKeys_ignores_inapplicable_case :
    hAB.filterByPartitionKeys tsZone = FilterOutcome.same :=
  (filterByPartitionKeys_ignores_inapplicable hAB tsZone).2 (by decide)

end PartitionSubset

namespace Splitting

/-- The last element of a mapped non-empty list is the image of the last
element, whatever the defaults. -/
theorem getLastD_map {α β : Type} (f : α → β) (l : List α) (h : l ≠ []) (d : β) (e : α) :
    (l.map f).getLastD d = f (l.getLastD e) := by
  induction l generalizing d e with
  | nil => exact absurd rfl h
  | cons a t ih =>
    cases t with
    | nil => simp
    | cons b t2 =>
      rw [List.map_cons, List.getLastD_cons, List.getLastD_cons]
      exact ih (by simp) (f a) a

/-- Cumulative sums of a non-empty list are non-empty. -/
theorem cumulativeSums_ne_nil (w : ℚ) (ws : List ℚ) : cumulativeSums (w :: ws) ≠ [] := by
  simp [cumulativeSums]

/-- Cumulative sums preserve length. -/
theorem cumulativeSums_length (ws : List ℚ) : (cumulativeSums ws).length = ws.length := by
  induction ws with
  | nil => rfl
  | cons w t ih => simp [cumulativeSums, ih]

/-- The last cumulative sum is the total. -/
theorem cumulativeSums_getLastD (w : ℚ) (ws : List ℚ) (d : ℚ) :
    (cumulativeSums (w :: ws)).getLastD d = w + ws.sum := by
  induction ws generalizing w d with
  | nil => simp [cumulativeSums]
  | cons x t ih =>
    show (w :: (cumulativeSums (x :: t)).map (fun c => w + c)).getLastD d = w + (x :: t).sum
    rw [List.getLastD_cons,
      getLastD_map (fun c => w + c) (cumulativeSums (x :: t)) (cumulativeSums_ne_nil x t) w 0,
      ih x 0]
    simp [List.sum_cons]

/-- Rounding an integer value is the identity. -/
theorem roundHalfToEven_natCast (n : ℕ) : roundHalfToEven (n : ℚ) = (n : ℤ) := by
  unfold roundHalfToEven
  rw [Int.floor_natCast]
  norm_num

/-- A `≤`-chain start is below the last chain element. -/
theorem chain_le_getLastD {p : ℕ} {cs : List ℕ}
    (h : List.Chain (fun a b => a ≤ b) p cs) : p ≤ cs.getLastD p := by
  induction cs generalizing p with
  | nil => simp
  | cons c t ih =>
    rcases List.chain_cons.mp h with ⟨hpc, htail⟩
    rw [List.getLastD_cons]
    exact le_trans hpc (ih htail)

/-- The last rounded cumulative index is the piece count. -/
theorem splitCuts_getLastD (weights : List ℚ) (P : ℕ) (hw : weights ≠ [])
    (hpos : ∀ w ∈ weights, 0 < w) :
    (splitCuts weights P).getLastD 0 = P := by
  obtain ⟨w, ws, rfl⟩ := List.exists_cons_of_ne_nil hw
  have hsum : 0 < (w :: ws).sum := List.sum_pos _ hpos (by simp)
  unfold splitCuts
  rw [getLastD_map _ _ (cumulativeSums_ne_nil w ws) 0 0, cumulativeSums_getLastD w ws 0,
    show w + ws.sum = (w :: ws).sum from (List.sum_cons).symm,
    div_self (ne_of_gt hsum), one_mul, roundHalfToEven_natCast, Int.toNat_natCast]

/-- Concatenating contiguous slices gives the contiguous block up to the last
cut. -/
theorem flatten_slicesFrom (xs : List String) (cuts : List ℕ) (prev : ℕ)
    (h : List.Chain (fun a b => a ≤ b) prev cuts) :
    (slicesFrom xs prev cuts).flatten = (xs.drop prev).take (cuts.getLastD prev - prev) := by
  induction cuts generalizing prev with
  | nil => simp [slicesFrom]
  | cons c cs ih =>
    rcases List.chain_cons.mp h with ⟨hpc, htail⟩
    have hcL : c ≤ cs.getLastD c := chain_le_getLastD htail
    show (((xs.drop prev).take (c - prev)) :: slicesFrom xs c cs).flatten
        = (xs.drop prev).take ((c :: cs).getLastD prev - prev)
    rw [List.flatten_cons, ih c htail, List.getLastD_cons,
      show cs.getLastD c - prev = (c - prev) + (cs.getLastD c - c) from by omega,
      List.take_add]
    congr 1
    rw [List.drop_drop, show prev + (c - prev) = c from by omega]

/-- The slice lengths are the consecutive cut differences when the cuts fit
inside the list. -/
theorem mapLength_slicesFrom (xs : List String) (cuts : List ℕ) (prev : ℕ)
    (h : List.Chain (fun a b => a ≤ b) prev cuts)
    (hle : cuts.getLastD prev ≤ xs.length) :
    (slicesFrom xs prev cuts).map List.length = cutDiffs prev cuts := by
  induction cuts generalizing prev with
  | nil => rfl
  | cons c cs ih =>
    rcases List.chain_cons.mp h with ⟨hpc, htail⟩
    rw [List.getLastD_cons] at hle
    have hcle : c ≤ xs.length := le_trans (chain_le_getLastD htail) hle
    show List.map List.length (((xs.drop prev).take (c - prev)) :: slicesFrom xs c cs)
        = (c - prev) :: cutDiffs c cs
    rw [List.map_cons]
    congr 1
    · rw [List.length_take, List.length_drop]
      omega
    · exact ih c htail hle

/-- `slicesFrom` yields one slice per cut. -/
theorem slicesFrom_length (xs : List String) (cuts : List ℕ) (prev : ℕ) :
    (slicesFrom xs prev cuts).length = cuts.length := by
  induction cuts generalizing prev with
  | nil => rfl
  | cons c cs ih =>
    show (((xs.drop prev).take (c - prev)) :: slicesFrom xs c cs).length = (c :: cs).length
    simp [ih c]

/-- Strictly increasing cuts give positive consecutive differences. -/
theorem cutDiffs_pos {prev : ℕ} {cs : List ℕ}
    (h : List.Chain (fun a b => a < b) prev cs) :
    ∀ d ∈ cutDiffs prev cs, 0 < d := by
  induction cs generalizing prev with
  | nil => intro d hd; simp [cutDiffs] at hd
  | cons c t ih =>
    rcases List.chain_cons.mp h with ⟨hpc, htail⟩
    intro d hd
    rw [show cutDiffs prev (c :: t) = (c - prev) :: cutDiffs c t from rfl] at hd
    rcases List.mem_cons.mp hd with h1 | h2
    · omega
    · exact ih htail d h2

/-- C5 counterexample: with the positive weight tuple `(1, 1000)` over two
pieces, the first rounded cumulative index is `0`, the first slice is empty,
and `_subset()` over the empty slice returns `self`: the call yields two
handles that both cover the full piece set, so the subsets are neither
disjoint nor a cover of each sub-path exactly once. -/
theorem split_positive_weights_can_duplicate_pieces :
    (∀ w ∈ ([1, 1000] : List ℚ), 0 < w) ∧
    2 ≤ ([1, 1000] : List ℚ).length ∧
    (["a", "b"] : List String).Nodup ∧
    splitSubsets ["a", "b"] [(1 : ℚ), 1000] = [["a", "b"], ["a", "b"]] ∧
    ¬ List.Pairwise (fun s t => ∀ x ∈ s, x ∉ t)
        (splitSubsets ["a", "b"] [(1 : ℚ), 1000]) := by
  have hcuts : splitCuts [(1 : ℚ), 1000] 2 = [0, 2] := by
    have hfr : Int.fract ((2 : ℚ)/1001) = 2/1001 := Int.fract_eq_self.mpr (by norm_num)
    norm_num [splitCuts, cumulativeSums, roundHalfToEven, hfr]
    omega
  have hsub : splitSubsets ["a", "b"] [(1 : ℚ), 1000] = [["a", "b"], ["a", "b"]] := by
    unfold splitSubsets splitSlices
    rw [show (["a", "b"] : List String).length = 2 from rfl, hcuts]
    rfl
  refine ⟨by norm_num, by norm_num, by decide, hsub, ?_⟩
  rw [hsub]
  intro hpw
  exact (List.pairwise_cons.mp hpw).1 ["a", "b"] (by simp) "a" (by simp) (by simp)

/-- C5 (amended): for two or more positive weights, and provided the rounded
cumulative indices are strictly increasing (equivalently, no returned part is
empty — otherwise `_subset()` over an empty slice returns the full handle),
`split` partitions the shuffled piece list: the parts are pairwise disjoint,
their concatenation is exactly the piece list, and the part sizes are the
consecutive differences of the rounded cumulative indices. -/
theorem split_parts_partition_when_cuts_strict (pieces : List String) (weights : List ℚ)
    (hnd : pieces.Nodup) (hlen2 : 2 ≤ weights.length) (hpos : ∀ w ∈ weights, 0 < w)
    (hstrict : List.Chain (fun a b => a < b) 0 (splitCuts weights pieces.length)) :
    (splitSubsets pieces weights).length = weights.length ∧
    (splitSubsets pieces weights).flatten = pieces ∧
    List.Pairwise (fun s t => ∀ x ∈ s, x ∉ t) (splitSubsets pieces weights) ∧
    (splitSubsets pieces weights).map List.length
      = cutDiffs 0 (splitCuts weights pieces.length) := by
  have hwne : weights ≠ [] := by
    intro hw; rw [hw] at hlen2; simp at hlen2
  have hchainle : List.Chain (fun a b => a ≤ b) 0 (splitCuts weights pieces.length) :=
    List.Chain.imp (fun a b hab => le_of_lt hab) hstrict
  have hlast : (splitCuts weights pieces.length).getLastD 0 = pieces.length :=
    splitCuts_getLastD weights pieces.length hwne hpos
  have hjoin : (splitSlices pieces weights).flatten = pieces := by
    unfold splitSlices
    rw [flatten_slicesFrom pieces (splitCuts weights pieces.length) 0 hchainle, hlast]
    simp
  have hmaplen : (splitSlices pieces weights).map List.length
      = cutDiffs 0 (splitCuts weights pieces.length) := by
    unfold splitSlices
    exact mapLength_slicesFrom pieces (splitCuts weights pieces.length) 0 hchainle
      (le_of_eq hlast)
  have hnonempty : ∀ s ∈ splitSlices pieces weights, s ≠ [] := by
    intro s hs hnil
    have hmem : s.length ∈ cutDiffs 0 (splitCuts weights pieces.length) := by
      rw [← hmaplen]
      exact List.mem_map_of_mem List.length hs
    have hp := cutDiffs_pos hstrict s.length hmem
    rw [hnil] at hp
    simp at hp
  have hsub : splitSubsets pieces weights = splitSlices pieces weights := by
    unfold splitSubsets
    have hcongr : ∀ s ∈ splitSlices pieces weights, subsetPieces pieces s = id s := by
      intro s hs
      simp [subsetPieces, hnonempty s hs]
    rw [List.map_congr_left hcongr, List.map_id]
  refine ⟨?_, ?_, ?_, ?_⟩
  · rw [hsub]
    unfold splitSlices
    rw [slicesFrom_length]
    unfold splitCuts
    rw [List.length_map, cumulativeSums_length]
  · rw [hsub]
    exact hjoin
  · have hndflat : (splitSlices pieces weights).flatten.Nodup := by
      rw [hjoin]; exact hnd
    rw [List.nodup_flatten] at hndflat
    rw [hsub]
    exact hndflat.2.imp (fun hd x hx1 hx2 => hd hx1 hx2)
  · rw [hsub]
    exact hmaplen

/-- Witness for C5 (amended): four pieces split with weights `(1, 1)`. -/
theorem split_parts_partition_when_cuts_strict_case :
    (splitSubsets ["a", "b", "c", "d"] [(1 : ℚ), 1]).length = ([(1 : ℚ), 1]).length ∧
    (splitSubsets ["a", "b", "c", "d"] [(1 : ℚ), 1]).flatten = ["a", "b", "c", "d"] ∧
    List.Pairwise (fun s t => ∀ x ∈ s, x ∉ t)
      (splitSubsets ["a", "b", "c", "d"] [(1 : ℚ), 1]) ∧
    (splitSubsets ["a", "b", "c", "d"] [(1 : ℚ), 1]).map List.length
      = cutDiffs 0 (splitCuts [(1 : ℚ), 1] (["a", "b", "c", "d"] : List String).length) :=
  split_parts_partition_when_cuts_strict ["a", "b", "c", "d"] [1, 1] (by decide)
    (by norm_num) (by norm_num)
    (by
      have hcuts : splitCuts [(1 : ℚ), 1] (["a", "b", "c", "d"] : List String).length
          = [2, 4] := by
        norm_num [splitCuts, cumulativeSums, roundHalfToEven]
        omega
      rw [hcuts]
      exact List.Chain.cons (by omega) (List.Chain.cons (by omega) List.Chain.nil))

end Splitting

/-- C10: calling `split` with no weights, or with the single weight tuple
`(1,)`, returns the handle itself (a single handle, not a one-element list
of handles). -/
theorem split_trivial_weights_return_self (pieces : List String) :
    Splitting.splitDDF pieces [] = Splitting.SplitOutcome.selfHandle ∧
    Splitting.splitDDF pieces [(1 : ℚ)] = Splitting.SplitOutcome.selfHandle := by
  constructor <;> simp [Splitting.splitDDF]

/-- C4: setting `minNonNullProportion` to a value different from the current
one empties the whole `suffNonNull` cache, and a subsequent `suffNonNull(col)`
recomputes and returns whether `nonNullProportion(col)` meets the new current
threshold, never a stale cached boolean. -/
theorem setMinNonNull_invalidates_suffNonNull (h : Profiling.ProfHandler) (v : ℚ) (col : String)
    (hv : v ≠ h.minNonNullProportionDefault) :
    (Profiling.setMinNonNullProportion h v).cacheSuffNonNull = [] ∧
    (Profiling.suffNonNullOne (Profiling.setMinNonNullProportion h v) col).1
      = decide (v ≤ h.nonNullProportionOf col) := by
  have hset : Profiling.setMinNonNullProportion h v =
      { h with minNonNullProportionDefault := v, cacheSuffNonNull := [] } := if_pos hv
  refine ⟨by rw [hset], ?_⟩
  rw [hset]
  simp [Profiling.suffNonNullOne]

/-- Witness for C4 at a concrete cached state. -/
theorem setMinNonNull_invalidates_suffNonNull_case :
    (Profiling.setMinNonNullProportion Profiling.profH0 (3/4)).cacheSuffNonNull = [] ∧
    (Profiling.suffNonNullOne (Profiling.setMinNonNullProportion Profiling.profH0 (3/4)) "c").1
      = decide ((3/4 : ℚ) ≤ Profiling.profH0.nonNullProportionOf "c") :=
  setMinNonNull_invalidates_suffNonNull Profiling.profH0 (3/4) "c"
    (by norm_num [Profiling.profH0])

/-- C6 counterexample: when every chosen piece fails to read, the sample call
aborts (the `adfs[0]` access at line 932 raises) instead of returning the
union of the sub-samples of the pieces that succeeded (here, the empty
union). -/
theorem sample_all_pieces_failing_aborts :
    SampleRun.sampleOutcome ["p"] (fun _ => (none : Option (List ℕ))) = none ∧
    SampleRun.sampleOutcome ["p"] (fun _ => (none : Option (List ℕ)))
      ≠ some (List.filterMap (fun _ => (none : Option (List ℕ))) ["p"]) := by
  constructor <;> simp [SampleRun.sampleOutcome]

/-- C6 (amended): provided at least one chosen piece reads successfully,
each per-piece failure is caught and skipped, and the sample call returns
the union of the sub-samples of exactly the pieces that succeeded. -/
theorem sample_skips_failing_pieces {α : Type} (pieces : List String)
    (readPiece : String → Option α) (hs : ∃ p ∈ pieces, (readPiece p).isSome) :
    SampleRun.sampleOutcome pieces readPiece = some (pieces.filterMap readPiece) := by
  obtain ⟨p, hp, hsome⟩ := hs
  obtain ⟨a, ha⟩ := Option.isSome_iff_exists.mp hsome
  have hmem : a ∈ pieces.filterMap readPiece := List.mem_filterMap.mpr ⟨p, hp, ha⟩
  have hne : pieces.filterMap readPiece ≠ [] := List.ne_nil_of_mem hmem
  simp only [SampleRun.sampleOutcome]
  rw [if_neg (fun hEmpty => hne (List.isEmpty_iff.mp hEmpty))]

/-- Witness for C6 (amended): one failing and one succeeding piece. -/
theorem sample_skips_failing_pieces_case :
    SampleRun.sampleOutcome ["bad", "good"] SampleRun.readPieceExample
      = some (List.filterMap SampleRun.readPieceExample ["bad", "good"]) :=
  sample_skips_failing_pieces ["bad", "good"] SampleRun.readPieceExample
    ⟨"good", by decide, by decide⟩

/-- C7: every transform-family operation returns a new handle whose
engine-native chain is the original chain with the operation appended, whose
local-columnar chain has the local counterpart appended when one exists, and
whose path and partition sub-path set are those of the original handle; the
new frame stays consistent with the new chain. -/
theorem operations_append_to_transform_chains (h : Transforms.TCHandle)
    (op : Transforms.Operation)
    (hcons : h.sparkDF = Transforms.applyChain h.initSparkDF h.sparkDFTransforms) :
    (Transforms.applyOperation h op).sparkDFTransforms
        = h.sparkDFTransforms ++ Transforms.sparkAdditions op ∧
    (Transforms.applyOperation h op).pandasDFTransforms
        = h.pandasDFTransforms ++ Transforms.pandasAdditions op ∧
    (Transforms.applyOperation h op).pieceSubPaths = h.pieceSubPaths ∧
    (Transforms.applyOperation h op).path = h.path ∧
    (Transforms.applyOperation h op).sparkDF
        = Transforms.applyChain (Transforms.applyOperation h op).initSparkDF
            (Transforms.applyOperation h op).sparkDFTransforms := by
  refine ⟨rfl, rfl, rfl, rfl, ?_⟩
  show Transforms.applyChain h.sparkDF (Transforms.sparkAdditions op)
      = Transforms.applyChain h.initSparkDF (h.sparkDFTransforms ++ Transforms.sparkAdditions op)
  rw [hcons]
  unfold Transforms.applyChain
  rw [List.foldl_append]

/-- Witness for C7: dropping a column on a freshly loaded handle. -/
theorem operations_append_to_transform_chains_case :
    (Transforms.applyOperation Transforms.tch0 (Transforms.Operation.dropOp ["x"])).sparkDFTransforms
        = Transforms.tch0.sparkDFTransforms
            ++ Transforms.sparkAdditions (Transforms.Operation.dropOp ["x"]) ∧
    (Transforms.applyOperation Transforms.tch0 (Transforms.Operation.dropOp ["x"])).pandasDFTransforms
        = Transforms.tch0.pandasDFTransforms
            ++ Transforms.pandasAdditions (Transforms.Operation.dropOp ["x"]) ∧
    (Transforms.applyOperation Transforms.tch0 (Transforms.Operation.dropOp ["x"])).pieceSubPaths
        = Transforms.tch0.pieceSubPaths ∧
    (Transforms.applyOperation Transforms.tch0 (Transforms.Operation.dropOp ["x"])).path
        = Transforms.tch0.path ∧
    (Transforms.applyOperation Transforms.tch0 (Transforms.Operation.dropOp ["x"])).sparkDF
        = Transforms.applyChain
            (Transforms.applyOperation Transforms.tch0 (Transforms.Operation.dropOp ["x"])).initSparkDF
            (Transforms.applyOperation Transforms.tch0 (Transforms.Operation.dropOp ["x"])).sparkDFTransforms :=
  operations_append_to_transform_chains Transforms.tch0 (Transforms.Operation.dropOp ["x"]) rfl

/-- C8: applying `select('*')` yields a handle whose observable row count and
schema (column names and types) equal those of the original handle. -/
theorem select_star_preserves_nRows_and_schema (h : SelectStar.SHandle) :
    (SelectStar.selectH h ["*"]).nRows = h.nRows ∧
    (SelectStar.selectH h ["*"]).frame.schema = h.frame.schema := by
  constructor <;>
    simp [SelectStar.selectH, SelectStar.selectExprSem, SelectStar.SHandle.nRows]

end ArimoData
